import Mathlib

/-!
Verification of the reconciliation core of `music.video.scrape.py`
(Music Video Organizer).

Modelling conventions of this shallow embedding:
* Python strings are `List Char`; `None`-able values are `Option`.
* Filenames are assumed newline-free, so the regular expressions of the
  source are modelled with `.` matching any character and `$` matching
  only the end of the string.
* Fractional bitrates (floats in the source JSON) are rationals, pixel
  heights are integers.
* `str.lower()` is `Char.toLower` pointwise (ASCII case folding).
* The left-to-right scans that Python's `re` performs with an internal
  cursor are written with an explicit fuel argument equal to the length
  of the scanned string; this is always sufficient because every step
  consumes at least one character, and it keeps every definition
  structurally recursive, hence kernel-reducible.
-/

namespace MusicVideoScrape

/-- Whitespace recognised by Python's `str.strip()` (ASCII range). -/
def isPyWs (c : Char) : Bool :=
  c == ' ' || c == '\t' || c == '\n' || c == '\x0b' || c == '\x0c' || c == '\r'

/-- Drop trailing whitespace (the tail half of Python `str.strip()`). -/
def dropTrail (s : List Char) : List Char :=
  (s.reverse.dropWhile isPyWs).reverse

/-- Python `str.strip()`: drop leading and trailing whitespace. -/
def pyStrip (s : List Char) : List Char :=
  dropTrail (s.dropWhile isPyWs)

/-- Python `str.lower()` (ASCII case folding). -/
def lowerList (s : List Char) : List Char :=
  s.map Char.toLower

/-- Index of the first occurrence of `sep` in `s`
(Python `str.find` / the `in` operator). -/
def findSepIdx (sep : List Char) : List Char → Option Nat
  | [] => none
  | c :: cs =>
    if sep.isPrefixOf (c :: cs) then some 0
    else (findSepIdx sep cs).map (· + 1)

/-- Python `s.split(sep, 1)` when `sep` occurs: the parts before and
after the first occurrence. -/
def splitOnFirst (sep s : List Char) : Option (List Char × List Char) :=
  (findSepIdx sep s).map (fun i => (s.take i, s.drop (i + sep.length)))

/-- Python `Path(name).stem`: `name` without its final suffix.  A suffix
exists when the last dot is neither the first nor the last character. -/
def pathStem (s : List Char) : List Char :=
  match findSepIdx ['.'] s.reverse with
  | some j =>
    let i := s.length - 1 - j
    if 0 < i ∧ i < s.length - 1 then s.take i else s
  | none => s

/-- Opening brackets of the span regexes `[\(\[\{]`. -/
def isOpener (c : Char) : Bool :=
  c == '(' || c == '[' || c == Char.ofNat 123

/-- Closing brackets of the span regexes `[\)\]\}]`. -/
def isCloser (c : Char) : Bool :=
  c == ')' || c == ']' || c == Char.ofNat 125

/-- Split a list after the first closing bracket: returns the span up to
and including the closer, and the rest.  This is the `.*?[\)\]\}]` part
of the span regexes (non-greedy: the first closer wins). -/
def splitAtCloser : List Char → Option (List Char × List Char)
  | [] => none
  | c :: cs =>
    if isCloser c then some ([c], cs)
    else (splitAtCloser cs).map (fun p => (c :: p.1, p.2))

/-- Fuelled scan of `re.sub(r'\s*[\(\[\{].*?[\)\]\}]\s*', '', s)`
(line 181/204/222/247 of the source): each match removes a bracketed
span together with the whitespace immediately around it, scanning left
to right over non-overlapping matches. -/
def removeSpansAux : Nat → List Char → List Char
  | 0, s => s
  | _ + 1, [] => []
  | n + 1, c :: cs =>
    if isOpener c then
      match splitAtCloser cs with
      | some p => removeSpansAux n (p.2.dropWhile isPyWs)
      | none => c :: removeSpansAux n cs
    else if isPyWs c then
      match (c :: cs).dropWhile isPyWs with
      | [] => (c :: cs).takeWhile isPyWs
      | o :: r =>
        if isOpener o then
          match splitAtCloser r with
          | some p => removeSpansAux n (p.2.dropWhile isPyWs)
          | none => (c :: cs).takeWhile isPyWs ++ o :: removeSpansAux n r
        else (c :: cs).takeWhile isPyWs ++ removeSpansAux n (o :: r)
    else c :: removeSpansAux n cs

def removeSpans (s : List Char) : List Char :=
  removeSpansAux s.length s

/-- Fuelled scan of `re.findall(r'[\(\[\{].*?[\)\]\}]', s)`: all
non-overlapping bracketed spans, left to right. -/
def findSpansAux : Nat → List Char → List (List Char)
  | 0, _ => []
  | _ + 1, [] => []
  | n + 1, c :: cs =>
    if isOpener c then
      match splitAtCloser cs with
      | some p => (c :: p.1) :: findSpansAux n p.2
      | none => findSpansAux n cs
    else findSpansAux n cs

def findSpans (s : List Char) : List (List Char) :=
  findSpansAux s.length s

/-- Python `' '.join(parens) if parens else None` applied to the spans of the
song segment (lines 184-185 and friends). -/
def extraInfoOf (songPart : List Char) : Option (List Char) :=
  match findSpans songPart with
  | [] => none
  | spans => some (List.intercalate [' '] spans)

structure ParsedName where
  artist : List Char
  song : List Char
  song_original : List Char
  extra_info : Option (List Char)
deriving DecidableEq

/-- Build the returned record from the artist and the stripped song
segment (lines 187-192 / 208-213 / 226-231 / 253-258 of the source). -/
def mkParsed (artist songPart : List Char) : ParsedName :=
  { artist := artist
    song := pyStrip (removeSpans songPart)
    song_original := songPart
    extra_info := extraInfoOf songPart }

def replaceUnderscores (s : List Char) : List Char :=
  s.map (fun c => if c = '_' then ' ' else c)

/-- The literal separator `" - "`. -/
def sepDash : List Char := [' ', '-', ' ']

/-- Strict-mode parsing (lines 235-260): replace underscores with
spaces, split on the first `" - "`, fail otherwise. -/
def parseStrict (name0 : List Char) : Option ParsedName :=
  let name := replaceUnderscores name0
  match splitOnFirst sepDash name with
  | some p => some (mkParsed (pyStrip p.1) (pyStrip p.2))
  | none => none

/-- Case-insensitive prefix test (the pattern letters are supplied in
lowercase, the scanned text is lowered, as `re.IGNORECASE` does). -/
def ciPrefixB (w l : List Char) : Bool :=
  w.isPrefixOf (lowerList l)

/-- Model of `re.sub(r'[-\.]WORD.*$', '', s, flags=re.IGNORECASE)` with
`word` lowercase: truncate at the leftmost `-`/`.` marker followed by the word
(the `.*$` swallows the remainder). -/
def junkTail (word : List Char) : List Char → List Char
  | [] => []
  | c :: cs =>
    if (c == '-' || c == '.') && ciPrefixB word cs then []
    else c :: junkTail word cs

/-- Model of `re.sub(r'[-\.]WORD$', '', s, flags=re.IGNORECASE)` with
`word` lowercase: remove a final `-`/`.` marker followed by the word at the
very end of the string. -/
def junkEnd (word : List Char) (s : List Char) : List Char :=
  match s.drop (s.length - (word.length + 1)) with
  | m :: rest =>
    if (m == '-' || m == '.') && (lowerList rest == word) then
      s.take (s.length - (word.length + 1))
    else s
  | [] => s

/-- Split a list after the first `]` (the `.*?\]` of `\[.*?\]`). -/
def splitAtBracket : List Char → Option (List Char × List Char)
  | [] => none
  | c :: cs =>
    if c == ']' then some ([c], cs)
    else (splitAtBracket cs).map (fun p => (c :: p.1, p.2))

/-- Fuelled scan of `re.sub(r'\[.*?\]', '', s)`: remove all
non-overlapping square-bracketed spans. -/
def removeSquareAux : Nat → List Char → List Char
  | 0, s => s
  | _ + 1, [] => []
  | n + 1, c :: cs =>
    if c == '[' then
      match splitAtBracket cs with
      | some p => removeSquareAux n p.2
      | none => c :: removeSquareAux n cs
    else c :: removeSquareAux n cs

def removeSquare (s : List Char) : List Char :=
  removeSquareAux s.length s

/-- Fuelled scan of `re.sub(lit, '', s, flags=re.IGNORECASE)` for a
bracket-free literal `lit` (supplied lowercase): remove all
non-overlapping case-insensitive occurrences. -/
def removeCIAux (lit : List Char) : Nat → List Char → List Char
  | 0, s => s
  | _ + 1, [] => []
  | n + 1, c :: cs =>
    if ciPrefixB lit (c :: cs) && !lit.isEmpty then
      removeCIAux lit n (cs.drop (lit.length - 1))
    else c :: removeCIAux lit n cs

def removeCI (lit s : List Char) : List Char :=
  removeCIAux lit s.length s

/-- The scene-junk cleanup of oddities mode (lines 153-162): the fixed,
ordered pattern list applied by successive `re.sub` calls. -/
def applyJunk (s : List Char) : List Char :=
  let s := junkTail "svcd".toList s
  let s := junkTail "dvdrip".toList s
  let s := junkTail "lbvidz".toList s
  let s := junkTail "gnrules".toList s
  let s := junkTail "littlec".toList s
  let s := junkEnd "mv".toList s
  let s := junkEnd "mb".toList s
  let s := junkTail "fioretti".toList s
  let s := junkTail "detox".toList s
  let s := junkTail "tolerance".toList s
  let s := junkTail "gray".toList s
  let s := junkTail "fused".toList s
  let s := junkTail "evilsoul".toList s
  let s := junkTail "szb".toList s
  let s := junkTail "x264".toList s
  let s := junkTail "ac3".toList s
  let s := removeSquare s
  let s := removeCI "(official video)".toList s
  let s := removeCI "(official)".toList s
  let s := s.filter (fun c => c != '\"')
  let s := s.filter (fun c => c != Char.ofNat 0xFF02)
  s

/-- Python `name.replace('..', ' . ')` (line 165): left-to-right,
non-overlapping. -/
def replaceDoubleDots : List Char → List Char
  | '.' :: '.' :: rest => ' ' :: '.' :: ' ' :: replaceDoubleDots rest
  | c :: rest => c :: replaceDoubleDots rest
  | [] => []

def replaceDots (s : List Char) : List Char :=
  s.map (fun c => if c = '.' then ' ' else c)

/-- Model of `re.sub(r'\s+', ' ', name)` (line 172): collapse whitespace runs to
a single space.  The Boolean argument records whether the previous
character was part of a run already replaced. -/
def collapseWsAux : Bool → List Char → List Char
  | _, [] => []
  | prevWs, c :: cs =>
    if isPyWs c then
      if prevWs then collapseWsAux true cs else ' ' :: collapseWsAux true cs
    else c :: collapseWsAux false cs

def collapseWs (s : List Char) : List Char :=
  collapseWsAux false s

/-- Does `\s+Featuring\.?\s+.*$` (IGNORECASE) match at the head of `l`?
(line 201 of the source). -/
def matchFeaturingAt (l : List Char) : Bool :=
  let r := l.dropWhile isPyWs
  !(l.takeWhile isPyWs).isEmpty &&
    ciPrefixB "featuring".toList r &&
    (let r2 := r.drop 9
     let r3 := if r2.head? == some '.' then r2.drop 1 else r2
     !(r3.takeWhile isPyWs).isEmpty)

/-- Model of `re.sub(r'\s+Featuring\.?\s+.*$', '', s, flags=re.IGNORECASE)`:
truncate at the leftmost match. -/
def featuringSub : List Char → List Char
  | [] => []
  | c :: cs => if matchFeaturingAt (c :: cs) then [] else c :: featuringSub cs

/-- Fuelled scan of `re.split(r'\s*-\s*', s)` (line 216): split on every
dash together with the whitespace around it, keeping empty fields. -/
def splitDashAux : Nat → List Char → List Char → List (List Char)
  | 0, s, acc => [acc.reverse ++ s]
  | _ + 1, [], acc => [acc.reverse]
  | n + 1, c :: cs, acc =>
    if c == '-' then acc.reverse :: splitDashAux n (cs.dropWhile isPyWs) []
    else if isPyWs c then
      match (c :: cs).dropWhile isPyWs with
      | '-' :: r => acc.reverse :: splitDashAux n (r.dropWhile isPyWs) []
      | r => splitDashAux n r (((c :: cs).takeWhile isPyWs).reverse ++ acc)
    else splitDashAux n cs (c :: acc)

def splitDash (s : List Char) : List (List Char) :=
  splitDashAux (s.length + 1) s []

/-- The literal separator `" by "` (compared against the lowered name). -/
def sepBy : List Char := [' ', 'b', 'y', ' ']

/-- Oddities-mode parsing (lines 152-233): scene-junk cleanup, dot and
underscore normalisation, whitespace collapse, then the three separator
strategies in order (`" - "`, case-insensitive `" by "`, loose dash). -/
def parseOddities (name0 : List Char) : Option ParsedName :=
  let name := pyStrip (collapseWs (replaceUnderscores (replaceDots
    (replaceDoubleDots (applyJunk name0)))))
  match splitOnFirst sepDash name with
  | some p => some (mkParsed (pyStrip p.1) (pyStrip p.2))
  | none =>
    match findSepIdx sepBy (lowerList name) with
    | some i =>
      some (mkParsed (featuringSub (pyStrip (name.take i)))
        (pyStrip (name.drop (i + 4))))
    | none =>
      match splitDash name with
      | a :: b :: _ => some (mkParsed (pyStrip a) (pyStrip b))
      | _ => none

/-- Function `parse_filename(filename, oddities)` (lines 138-260). -/
def parse_filename (filename : List Char) (oddities : Bool) : Option ParsedName :=
  if oddities then parseOddities (pathStem filename)
  else parseStrict (pathStem filename)

/-- The dictionary `get_local_video_info` builds (lines 287-294). -/
structure LocalInfo where
  width : Option Int
  height : Option Int
  vcodec : Option (List Char)
  acodec : Option (List Char)
  duration : ℚ
  filesize : Int
deriving DecidableEq

/-- The dictionary `YTDLPClient.get_best_formats` builds (lines 103-112). -/
structure YtFormats where
  width : Option Int
  height : Option Int
  vcodec : Option (List Char)
  acodec : Option (List Char)
  vbr : Option ℚ
  abr : Option ℚ
  ext : Option (List Char)
  filesize : Option Int
deriving DecidableEq

/-- Function `is_youtube_better(local_info, yt_info)` (lines 300-317).  Python's
`x or 0` on an optional number is `Option.getD 0` (a present `0.0` is
falsy and yields `0` as well). -/
def is_youtube_better (local_info : Option LocalInfo)
    (yt_info : Option YtFormats) : Bool :=
  match local_info, yt_info with
  | some l, some y =>
    if (y.vbr.getD 0) < 100 then false
    else decide (y.height.getD 0 > l.height.getD 0 + 100)
  | _, _ => false

/-- Lines 530-552 of `process_file`: the `should_download` flag.  The
profiles are only inspected under `if metadata['youtube_id']`, and both
branches of the final `if`/`else` set the flag to `True`. -/
def computeShouldDownload (youtube_id : Option (List Char))
    (local_info : Option LocalInfo) (yt_formats : Option YtFormats) : Bool :=
  match youtube_id with
  | none => false
  | some _ =>
    match local_info, yt_formats with
    | some l, some y =>
      if (y.vbr.getD 0) < 100 then false
      else if is_youtube_better (some l) (some y) then true
      else true
    | _, _ => false

/-- The invalid filename characters of `sanitize_filename` (line 323). -/
def invalidChars : List Char :=
  ['<', '>', ':', '\"', '/', '\\', '|', '?', '*']

/-- The loop `for char in invalid: name = name.replace(char, '_')`
(lines 324-325). -/
def replaceInvalid (s : List Char) : List Char :=
  invalidChars.foldl (fun t c => t.map (fun d => if d = c then '_' else d)) s

/-- The per-character effect of the replacement loop: mapping the nine
single-character `str.replace` passes over one character. -/
def replaceInvalidChar (d : Char) : Char :=
  invalidChars.foldl (fun x c => if x = c then '_' else x) d

/-- Python `rstrip('.')`. -/
def rstripDots (s : List Char) : List Char :=
  (s.reverse.dropWhile (fun c => c == '.')).reverse

/-- Function `sanitize_filename(name)` (lines 320-326): replace the invalid
characters with `_`, then `name.strip().rstrip('.')`. -/
def sanitize_filename (s : List Char) : List Char :=
  rstripDots (pyStrip (replaceInvalid s))

/-- The part of the pattern `feat\.?\s+` tested on the text after the
leading whitespace run. -/
def featCore (r : List Char) : Bool :=
  ciPrefixB "feat".toList r &&
    (let r2 := r.drop 4
     let r3 := if r2.head? == some '.' then r2.drop 1 else r2
     !(r3.takeWhile isPyWs).isEmpty)

/-- Does `\s+feat\.?\s+.*$` (IGNORECASE) match at the head of `l`?
(the pattern of `get_primary_artist`, line 331). -/
def matchFeatAt (l : List Char) : Bool :=
  !(l.takeWhile isPyWs).isEmpty && featCore (l.dropWhile isPyWs)

/-- Truncation at the leftmost match of `\s+feat\.?\s+.*$`. -/
def featTrunc : List Char → List Char
  | [] => []
  | c :: cs => if matchFeatAt (c :: cs) then [] else c :: featTrunc cs

/-- Function `get_primary_artist(artist_name)` (lines 329-332). -/
def get_primary_artist (artist_name : List Char) : List Char :=
  pyStrip (featTrunc artist_name)

/-- Does `\s+feat\.?\s+` match anywhere in `s`?  Used to express that a
prefix of the artist string contains no feat clause of its own. -/
def featMatchesSomewhere : List Char → Bool
  | [] => false
  | c :: cs => matchFeatAt (c :: cs) || featMatchesSomewhere cs

/-- A raw search-result entry as `find_best_match` sees it.  `artists`
is `none` when the key is missing or not a list; an element is `none`
when it is not a dict or its name is not a string (the defensive skips
of lines 393-404); a missing name key defaults to the empty string. -/
structure RawCandidate where
  artists : Option (List (Option (List Char)))
  song_title : List Char
deriving DecidableEq

/-- The first artist name examined by `find_best_match`, or `none` when
the candidate is skipped as malformed. -/
def firstArtistName (c : RawCandidate) : Option (List Char) :=
  match c.artists with
  | none => none
  | some [] => none
  | some (a :: _) => a

/-- Python's substring operator `a in b` on strings. -/
def isInfixOfB (l₁ : List Char) : List Char → Bool
  | [] => l₁.isEmpty
  | c :: cs => l₁.isPrefixOf (c :: cs) || isInfixOfB l₁ cs

/-- The two-way case-insensitive containment test on artists
(line 409). -/
def artistTest (pArtist nm : List Char) : Bool :=
  isInfixOfB (lowerList pArtist) (lowerList nm) ||
    isInfixOfB (lowerList nm) (lowerList pArtist)

/-- The two-way case-insensitive containment test on songs (line 410). -/
def songTest (pSong title : List Char) : Bool :=
  isInfixOfB (lowerList pSong) (lowerList title) ||
    isInfixOfB (lowerList title) (lowerList pSong)

/-- Acceptance of one candidate by the loop body of `find_best_match`
(lines 391-411). -/
def accepts (p : ParsedName) (c : RawCandidate) : Bool :=
  match firstArtistName c with
  | none => false
  | some nm => artistTest p.artist nm && songTest p.song c.song_title

/-- Function `find_best_match(imvdb_results, parsed_filename)` (lines 383-413):
`none` models a missing/falsy result set; the first accepted candidate
in input order is returned. -/
def find_best_match (results : Option (List RawCandidate))
    (p : ParsedName) : Option RawCandidate :=
  match results with
  | none => none
  | some rs => rs.find? (accepts p)

/-- Acceptance as the specification words it: case-insensitively, the
parsed artist is a substring of the candidate's first listed artist
name or vice versa, and the parsed cleaned song is a substring of the
candidate's song title or vice versa (malformed candidates have no
first artist name and are never accepted). -/
def acceptedP (p : ParsedName) (c : RawCandidate) : Prop :=
  ∃ nm, firstArtistName c = some nm ∧
    (lowerList p.artist <:+: lowerList nm ∨
      lowerList nm <:+: lowerList p.artist) ∧
    (lowerList p.song <:+: lowerList c.song_title ∨
      lowerList c.song_title <:+: lowerList p.song)

/-- Python `'(original)' in filepath.stem.lower()` (line 563). -/
def isAlreadyOriginal (stem : List Char) : Bool :=
  isInfixOfB "(original)".toList (lowerList stem)

/-- Where the apply phase of `process_file` puts things (all names are
inside the single target directory built on lines 554-559). -/
structure ApplyResult where
  attempted : Bool
  downloaded : Option (List Char)
  movedTo : List Char
deriving DecidableEq

/-- Lines 561-595 of `process_file`: choose the final filename, attempt
the download when allowed, and compute where the pre-existing local
file ends up. -/
def processApply (artist song : List Char) (extra_info : Option (List Char))
    (stem ext : List Char) (should_download : Bool)
    (youtube_id : Option (List Char)) (downloadOk : Bool) : ApplyResult :=
  let final_filename :=
    sanitize_filename
      (if isAlreadyOriginal stem then stem ++ ext
       else
         match extra_info with
         | some e => artist ++ sepDash ++ song ++ [' '] ++ e ++ ext
         | none => artist ++ sepDash ++ song ++ ext)
  if should_download && youtube_id.isSome && !isAlreadyOriginal stem then
    let download_filename :=
      sanitize_filename (artist ++ sepDash ++ song ++ ".mp4".toList)
    if downloadOk then
      { attempted := true
        downloaded := some download_filename
        movedTo := sanitize_filename (stem ++ " (original)".toList ++ ext) }
    else { attempted := true, downloaded := none, movedTo := final_filename }
  else { attempted := false, downloaded := none, movedTo := final_filename }

/-- A full catalog detail record as the bulk scrapers read it. -/
structure VideoDetails where
  artists : List (List Char)
  song_title : List Char
  sources : List (List Char × List Char)
deriving DecidableEq

/-- The externals a bulk scrape interacts with: catalog detail fetch,
the on-disk existence test, and the downloader's outcome. -/
structure ScrapeEnv where
  details : Nat → Option VideoDetails
  existsOnDisk : List (List Char) → Bool
  downloadOk : List Char → List (List Char) → Bool

/-- External calls a bulk scrape can issue for one entry. -/
inductive ScrapeEvent where
  | detailFetch : Nat → ScrapeEvent
  | download : List Char → List (List Char) → ScrapeEvent
deriving DecidableEq

/-- The first source tagged `youtube` (lines 649-652 / 717-720; the
bulk paths do not prefer `is_primary`). -/
def firstYouTubeSource (srcs : List (List Char × List Char)) : Option (List Char) :=
  (srcs.find? (fun p => p.1 == "youtube".toList)).map (·.2)

/-- The planned download path (components under the target root) of the
artist scrape, lines 658-665. -/
def plannedPathArtist (slug : List Char) (d : VideoDetails) : List (List Char) :=
  let artist_name := match d.artists with | [] => slug | a :: _ => a
  [sanitize_filename artist_name,
   sanitize_filename (artist_name ++ sepDash ++ d.song_title),
   sanitize_filename (artist_name ++ sepDash ++ d.song_title ++ ".mp4".toList)]

/-- A catalog entity-video stub as `scrape_artist` reads it. -/
structure VideoStub where
  id : Nat
  song_title : List Char
deriving DecidableEq

/-- One loop iteration of `scrape_artist` (lines 643-694): the detail
fetch is issued first, then the planned path is tested, then the
download is issued only when the path does not exist yet. -/
def processEntryArtist (env : ScrapeEnv) (slug : List Char)
    (v : VideoStub) : List ScrapeEvent :=
  ScrapeEvent.detailFetch v.id ::
    match env.details v.id with
    | none => []
    | some d =>
      match firstYouTubeSource d.sources with
      | none => []
      | some yid =>
        if env.existsOnDisk (plannedPathArtist slug d) then []
        else [ScrapeEvent.download yid (plannedPathArtist slug d)]

/-- The whole `scrape_artist` loop, iterations being independent. -/
def scrapeArtistEvents (env : ScrapeEnv) (slug : List Char)
    (videos : List VideoStub) : List ScrapeEvent :=
  (videos.map (processEntryArtist env slug)).flatten

/-- A catalog entity-video stub as `scrape_director` reads it (the
artist name comes from the stub, line 710). -/
structure DirVideoStub where
  id : Nat
  song_title : List Char
  artists : List (List Char)
deriving DecidableEq

/-- The planned download path of the director scrape, lines 722-730. -/
def plannedPathDirector (v : DirVideoStub) : List (List Char) :=
  let artist_name := match v.artists with | [] => "Unknown".toList | a :: _ => a
  [sanitize_filename artist_name,
   sanitize_filename (artist_name ++ sepDash ++ v.song_title),
   sanitize_filename (artist_name ++ sepDash ++ v.song_title ++ ".mp4".toList)]

/-- One loop iteration of `scrape_director` (lines 709-758). -/
def processEntryDirector (env : ScrapeEnv) (v : DirVideoStub) : List ScrapeEvent :=
  ScrapeEvent.detailFetch v.id ::
    match env.details v.id with
    | none => []
    | some d =>
      match firstYouTubeSource d.sources with
      | none => []
      | some yid =>
        if env.existsOnDisk (plannedPathDirector v) then []
        else [ScrapeEvent.download yid (plannedPathDirector v)]

/-- The whole `scrape_director` loop. -/
def scrapeDirectorEvents (env : ScrapeEnv)
    (videos : List DirVideoStub) : List ScrapeEvent :=
  (videos.map (processEntryDirector env)).flatten

/-! ### Basic lemmas about the string primitives -/

theorem dropWhile_idem (p : Char → Bool) (l : List Char) :
    (l.dropWhile p).dropWhile p = l.dropWhile p := by
  induction l with
  | nil => rfl
  | cons c cs ih =>
    by_cases h : p c
    · simp [List.dropWhile_cons, h, ih]
    · simp [List.dropWhile_cons, h]

theorem dropWhile_cons_eq_self {p : Char → Bool} {c : Char} {t : List Char}
    (h : (c :: t).dropWhile p = c :: t) : p c = false := by
  by_cases hc : p c
  · exfalso
    rw [List.dropWhile_cons, if_pos hc] at h
    have hlen := congrArg List.length h
    have := (List.dropWhile_sublist (l := t) p).length_le
    simp at hlen
    omega
  · simpa using hc

theorem dropWhile_eq_self_of_front {p : Char → Bool} {u l : List Char}
    (hl : l.dropWhile p = l) (hu : u <+: l) : u.dropWhile p = u := by
  cases u with
  | nil => rfl
  | cons c u' =>
    obtain ⟨t, ht⟩ := hu
    have hc : p c = false := by
      have : l = c :: (u' ++ t) := by rw [← ht]; rfl
      exact dropWhile_cons_eq_self (this ▸ hl)
    simp [List.dropWhile_cons, hc]

theorem dropTrail_front (l : List Char) : dropTrail l <+: l := by
  refine ⟨(l.reverse.takeWhile isPyWs).reverse, ?_⟩
  rw [dropTrail, ← List.reverse_append, List.takeWhile_append_dropWhile,
    List.reverse_reverse]

theorem dropTrail_dropTrail (l : List Char) :
    dropTrail (dropTrail l) = dropTrail l := by
  unfold dropTrail
  rw [List.reverse_reverse, dropWhile_idem]

theorem dropWhile_pyStrip (s : List Char) :
    (pyStrip s).dropWhile isPyWs = pyStrip s :=
  dropWhile_eq_self_of_front (dropWhile_idem isPyWs s) (dropTrail_front _)

theorem dropTrail_pyStrip (s : List Char) :
    dropTrail (pyStrip s) = pyStrip s :=
  dropTrail_dropTrail _

theorem pyStrip_eq_self_of {s : List Char} (h1 : s.dropWhile isPyWs = s)
    (h2 : dropTrail s = s) : pyStrip s = s := by
  rw [pyStrip, h1, h2]

theorem pyStrip_idem (s : List Char) : pyStrip (pyStrip s) = pyStrip s :=
  pyStrip_eq_self_of (dropWhile_pyStrip s) (dropTrail_pyStrip s)

theorem dropWhile_append_of_eq_nil {p : Char → Bool} {l₁ : List Char}
    (l₂ : List Char) (h : l₁.dropWhile p = []) :
    (l₁ ++ l₂).dropWhile p = l₂.dropWhile p := by
  induction l₁ with
  | nil => rfl
  | cons c cs ih =>
    by_cases hc : p c
    · rw [List.dropWhile_cons, if_pos hc] at h
      simpa [List.dropWhile_cons, hc] using ih h
    · rw [List.dropWhile_cons, if_neg hc] at h
      exact absurd h (by simp)

theorem dropWhile_append_of_ne_nil {p : Char → Bool} {l₁ : List Char}
    (l₂ : List Char) (h : l₁.dropWhile p ≠ []) :
    (l₁ ++ l₂).dropWhile p = l₁.dropWhile p ++ l₂ := by
  induction l₁ with
  | nil => exact absurd rfl h
  | cons c cs ih =>
    by_cases hc : p c
    · rw [List.dropWhile_cons, if_pos hc] at h
      simpa [List.dropWhile_cons, hc] using ih h
    · simp [List.dropWhile_cons, hc]

theorem dropTrail_eq_nil_iff (X : List Char) :
    dropTrail X = [] ↔ X.reverse.dropWhile isPyWs = [] := by
  constructor
  · intro h
    have := congrArg List.reverse h
    rwa [dropTrail, List.reverse_reverse] at this
  · intro h
    rw [dropTrail, h]
    rfl

theorem dropTrail_cons (c : Char) (X : List Char) :
    dropTrail (c :: X) =
      if isPyWs c = true ∧ dropTrail X = [] then [] else c :: dropTrail X := by
  have hrev : (c :: X).reverse = X.reverse ++ [c] := List.reverse_cons c X
  by_cases h : X.reverse.dropWhile isPyWs = []
  · have hX : dropTrail X = [] := (dropTrail_eq_nil_iff X).mpr h
    by_cases hc : isPyWs c = true
    · rw [dropTrail, hrev, dropWhile_append_of_eq_nil _ h,
        List.dropWhile_cons, if_pos hc, if_pos ⟨hc, hX⟩]
      rfl
    · rw [dropTrail, hrev, dropWhile_append_of_eq_nil _ h,
        List.dropWhile_cons, if_neg hc, if_neg (fun hand => hc hand.1), hX]
      rfl
  · have hX : ¬(isPyWs c = true ∧ dropTrail X = []) := by
      rintro ⟨-, hnil⟩
      exact h ((dropTrail_eq_nil_iff X).mp hnil)
    rw [dropTrail, hrev, dropWhile_append_of_ne_nil _ h, if_neg hX,
      List.reverse_append]
    rfl

theorem featuringSub_front (s : List Char) : featuringSub s <+: s := by
  induction s with
  | nil => exact ⟨[], rfl⟩
  | cons c cs ih =>
    rw [featuringSub]
    by_cases h : matchFeaturingAt (c :: cs) = true
    · simp [h]
    · simp only [h]
      obtain ⟨t, ht⟩ := ih
      exact ⟨t, by simp [ht]⟩

theorem matchFeaturingAt_cons_of_ws {c : Char} {l : List Char}
    (hc : isPyWs c = true) (h : matchFeaturingAt l = true) :
    matchFeaturingAt (c :: l) = true := by
  unfold matchFeaturingAt at h ⊢
  rw [List.takeWhile_cons_of_pos hc, List.dropWhile_cons_of_pos hc]
  simp only [Bool.and_eq_true] at h ⊢
  exact ⟨⟨by simp, h.1.2⟩, h.2⟩

theorem featuringSub_eq_nil {cs : List Char} (h : featuringSub cs = []) :
    cs = [] ∨ matchFeaturingAt cs = true := by
  cases cs with
  | nil => exact Or.inl rfl
  | cons d t =>
    rw [featuringSub] at h
    by_cases hm : matchFeaturingAt (d :: t) = true
    · exact Or.inr hm
    · simp [hm] at h

theorem featuringSub_noTrail {s : List Char} (h : dropTrail s = s) :
    dropTrail (featuringSub s) = featuringSub s := by
  induction s with
  | nil => rfl
  | cons c cs ih =>
    rw [dropTrail_cons] at h
    have hcs : dropTrail cs = cs := by
      by_cases hcond : isPyWs c = true ∧ dropTrail cs = []
      · rw [if_pos hcond] at h; exact absurd h (by simp)
      · rw [if_neg hcond] at h
        exact (List.cons.inj h).2
    have hncond : ¬(isPyWs c = true ∧ dropTrail cs = []) := by
      intro hcond
      rw [if_pos hcond] at h; exact absurd h (by simp)
    rw [featuringSub]
    by_cases hm : matchFeaturingAt (c :: cs) = true
    · simp [hm]; rfl
    · simp only [hm, if_neg, Bool.false_eq_true, if_false]
      rw [dropTrail_cons, ih hcs]
      have hne : ¬(isPyWs c = true ∧ featuringSub cs = []) := by
        rintro ⟨hwc, hfs⟩
        rcases featuringSub_eq_nil hfs with hnil | hmatch
        · exact hncond ⟨hwc, by simp [hnil, dropTrail]⟩
        · exact hm (matchFeaturingAt_cons_of_ws hwc hmatch)
      rw [if_neg hne]

theorem featuringSub_stripped (s : List Char) :
    pyStrip (featuringSub (pyStrip s)) = featuringSub (pyStrip s) :=
  pyStrip_eq_self_of
    (dropWhile_eq_self_of_front (dropWhile_pyStrip s) (featuringSub_front _))
    (featuringSub_noTrail (dropTrail_pyStrip s))

/-! ### Claim C5 -/

/-- Claim C5, counterexample: on the filename `" - B.mp4"` the strict
parser succeeds and returns an **empty** artist, so parsing does not
guarantee non-empty artist and song fields. -/
theorem parse_filename_empty_artist_cex :
    parse_filename " - B.mp4".toList false =
      some { artist := [], song := "B".toList,
             song_original := "B".toList, extra_info := none } := by
  decide

/-- Claim C5, amended: for every filename and either parsing mode, when
`parse_filename` returns a record, the artist and song fields are
trimmed strings (fixed points of stripping); they may however be empty.
Parsing still never yields a partial record (the record type is total). -/
theorem parse_filename_fields_trimmed (fn : List Char) (mode : Bool)
    (r : ParsedName) (h : parse_filename fn mode = some r) :
    pyStrip r.artist = r.artist ∧ pyStrip r.song = r.song := by
  unfold parse_filename at h
  by_cases hm : mode = true
  · rw [if_pos hm] at h
    unfold parseOddities at h
    set nm := pyStrip (collapseWs (replaceUnderscores (replaceDots
      (replaceDoubleDots (applyJunk (pathStem fn)))))) with hnm
    clear_value nm
    dsimp only at h
    rcases h1 : splitOnFirst sepDash nm with - | p
    · rw [h1] at h
      rcases h2 : findSepIdx sepBy (lowerList nm) with - | i
      · rw [h2] at h
        rcases h3 : splitDash nm with - | ⟨a, - | ⟨b, rest⟩⟩
        · rw [h3] at h; exact absurd h (by simp)
        · rw [h3] at h; exact absurd h (by simp)
        · rw [h3] at h
          injection h with h
          subst h
          exact ⟨pyStrip_idem _, pyStrip_idem _⟩
      · rw [h2] at h
        injection h with h
        subst h
        exact ⟨featuringSub_stripped _, pyStrip_idem _⟩
    · rw [h1] at h
      injection h with h
      subst h
      exact ⟨pyStrip_idem _, pyStrip_idem _⟩
  · rw [if_neg hm] at h
    unfold parseStrict at h
    dsimp only at h
    rcases h1 : splitOnFirst sepDash (replaceUnderscores (pathStem fn))
      with - | p
    · rw [h1] at h; exact absurd h (by simp)
    · rw [h1] at h
      injection h with h
      subst h
      exact ⟨pyStrip_idem _, pyStrip_idem _⟩

/-- Claim C5, witness: the amended theorem applied to a concrete parse
in each mode. -/
theorem parse_filename_fields_trimmed_witness :
    (parse_filename "A - B (x).mp4".toList false =
      some { artist := "A".toList, song := "B".toList,
             song_original := "B (x)".toList,
             extra_info := some "(x)".toList }) ∧
    pyStrip "A".toList = "A".toList ∧ pyStrip "B".toList = "B".toList := by
  refine ⟨by decide, ?_⟩
  exact parse_filename_fields_trimmed "A - B (x).mp4".toList false
    { artist := "A".toList, song := "B".toList,
      song_original := "B (x)".toList, extra_info := some "(x)".toList }
    (by decide)

/-! ### Claims C1 and C2 -/

/-- Claim C1: `is_youtube_better` returns `false` when either profile
is absent; returns `false` whenever the remote video bitrate (missing
treated as `0`) is below 100 kbps regardless of any height difference;
and returns `true` iff both profiles are present, the remote bitrate is
at least 100, and the remote height exceeds the local height (missing
heights treated as `0`) by more than 100 px. -/
theorem is_youtube_better_spec :
    (∀ yi, is_youtube_better none yi = false) ∧
    (∀ li, is_youtube_better li none = false) ∧
    (∀ li y, y.vbr.getD 0 < 100 → is_youtube_better li (some y) = false) ∧
    (∀ li yi, is_youtube_better li yi = true ↔
      ∃ l y, li = some l ∧ yi = some y ∧ 100 ≤ y.vbr.getD 0 ∧
        l.height.getD 0 + 100 < y.height.getD 0) := by
  refine ⟨fun yi => by cases yi <;> rfl, fun li => by cases li <;> rfl,
    ?_, ?_⟩
  · intro li y h
    cases li with
    | none => rfl
    | some l => simp [is_youtube_better, if_pos h]
  · intro li yi
    constructor
    · intro h
      cases li with
      | none => simp [is_youtube_better] at h
      | some l =>
        cases yi with
        | none => simp [is_youtube_better] at h
        | some y =>
          refine ⟨l, y, rfl, rfl, ?_, ?_⟩
          · by_cases hv : y.vbr.getD 0 < 100
            · simp [is_youtube_better, if_pos hv] at h
            · exact le_of_not_lt hv
          · by_cases hv : y.vbr.getD 0 < 100
            · simp [is_youtube_better, if_pos hv] at h
            · rw [is_youtube_better, if_neg hv] at h
              exact of_decide_eq_true h
    · rintro ⟨l, y, rfl, rfl, hv, hh⟩
      rw [is_youtube_better, if_neg (not_lt.mpr hv)]
      exact decide_eq_true hh

/-- Claim C1, witness: a remote profile with bitrate 40 and a huge
height difference is still rejected (the bitrate floor short-circuits),
by the third conjunct of the specification theorem. -/
theorem is_youtube_better_spec_witness :
    ((some (40 : ℚ)).getD 0 < 100) ∧
    is_youtube_better
      (some { width := some 640, height := some 480, vcodec := none,
              acodec := none, duration := 0, filesize := 0 })
      (some { width := some 1920, height := some 4000, vcodec := none,
              acodec := none, vbr := some 40, abr := none, ext := none,
              filesize := none }) = false :=
  ⟨by norm_num, is_youtube_better_spec.2.2.1 _ _ (by norm_num)⟩

/-- Claim C2: in the per-file flow, when both profiles are present and
the remote bitrate is at least 100 kbps, `should_download` is set to
`true` even in the branch where the arbiter said the local file is not
worse, and with a present YouTube id and a source file that is not
`(original)`-marked the download is then attempted. -/
theorem should_download_despite_arbiter (id : List Char) (li : LocalInfo)
    (yf : YtFormats) (hv : 100 ≤ yf.vbr.getD 0)
    (harb : is_youtube_better (some li) (some yf) = false) :
    computeShouldDownload (some id) (some li) (some yf) = true ∧
    ∀ (artist song : List Char) (extra : Option (List Char))
      (stem ext : List Char) (dk : Bool),
      isAlreadyOriginal stem = false →
      (processApply artist song extra stem ext
        (computeShouldDownload (some id) (some li) (some yf))
        (some id) dk).attempted = true := by
  have hsd : computeShouldDownload (some id) (some li) (some yf) = true := by
    rw [computeShouldDownload, if_neg (not_lt.mpr hv), harb]
    rfl
  refine ⟨hsd, ?_⟩
  intro artist song extra stem ext dk ho
  rw [processApply.eq_def, hsd]
  simp only [ho, Option.isSome_some, Bool.and_true, Bool.true_and,
    Bool.not_false, if_true]
  cases dk <;> rfl

/-- Claim C2, witness: equal heights (arbiter says local is not worse)
with bitrate 200 still yield `should_download = true`. -/
theorem should_download_despite_arbiter_witness :
    (100 ≤ ((some (200 : ℚ)).getD 0)) ∧
    is_youtube_better
      (some { width := some 1920, height := some 1080, vcodec := none,
              acodec := none, duration := 0, filesize := 0 })
      (some { width := some 1920, height := some 1080, vcodec := none,
              acodec := none, vbr := some 200, abr := none, ext := none,
              filesize := none }) = false ∧
    computeShouldDownload (some ['x'])
      (some { width := some 1920, height := some 1080, vcodec := none,
              acodec := none, duration := 0, filesize := 0 })
      (some { width := some 1920, height := some 1080, vcodec := none,
              acodec := none, vbr := some 200, abr := none, ext := none,
              filesize := none }) = true :=
  ⟨by norm_num, by norm_num [is_youtube_better],
    (should_download_despite_arbiter _ _ _ (by norm_num)
      (by norm_num [is_youtube_better])).1⟩

/-! ### Claim C6 -/

theorem foldl_replace_eq_map (L : List Char) (s : List Char) :
    L.foldl (fun t c => t.map (fun d => if d = c then '_' else d)) s =
      s.map (fun d => L.foldl (fun x c => if x = c then '_' else x) d) := by
  induction L generalizing s with
  | nil => simp
  | cons c L ih =>
    simp only [List.foldl_cons]
    rw [ih, List.map_map]
    rfl

theorem replaceInvalid_eq_map (s : List Char) :
    replaceInvalid s = s.map replaceInvalidChar :=
  foldl_replace_eq_map invalidChars s

theorem replaceInvalidChar_spec (d : Char) :
    replaceInvalidChar d = if d ∈ invalidChars then '_' else d := by
  by_cases h1 : d = '<'
  · subst h1; decide
  by_cases h2 : d = '>'
  · subst h2; decide
  by_cases h3 : d = ':'
  · subst h3; decide
  by_cases h4 : d = '\"'
  · subst h4; decide
  by_cases h5 : d = '/'
  · subst h5; decide
  by_cases h6 : d = '\\'
  · subst h6; decide
  by_cases h7 : d = '|'
  · subst h7; decide
  by_cases h8 : d = '?'
  · subst h8; decide
  by_cases h9 : d = '*'
  · subst h9; decide
  simp [replaceInvalidChar, invalidChars, h1, h2, h3, h4, h5, h6, h7, h8, h9]

theorem dropTrail_subset (l : List Char) : dropTrail l ⊆ l := by
  intro c hc
  rw [dropTrail, List.mem_reverse] at hc
  exact List.mem_reverse.mp (List.dropWhile_subset _ hc)

theorem pyStrip_subset (l : List Char) : pyStrip l ⊆ l :=
  fun _ hc => List.dropWhile_subset _ (dropTrail_subset _ hc)

theorem rstripDots_subset (l : List Char) : rstripDots l ⊆ l := by
  intro c hc
  rw [rstripDots, List.mem_reverse] at hc
  exact List.mem_reverse.mp (List.dropWhile_subset _ hc)

/-- Claim C6, counterexample: `"a "` is free of the invalid characters
yet is not a fixed point of `sanitize_filename` (the trailing blank is
stripped), so the fixed-point half of the claim fails as stated. -/
theorem sanitize_filename_not_fixed_point_cex :
    (∀ c ∈ "a ".toList, c ∉ invalidChars) ∧
    sanitize_filename "a ".toList ≠ "a ".toList := by
  decide

/-- Claim C6, amended: `sanitize_filename` replaces every occurrence of
each character of `<>:"/\|?*` with an underscore, then strips leading
and trailing whitespace, then trailing dots; it is a fixed point on
strings that are free of the invalid characters **and** carry no
leading/trailing whitespace and no trailing dot. -/
theorem sanitize_filename_spec :
    (∀ s, sanitize_filename s = rstripDots (pyStrip (s.map replaceInvalidChar))) ∧
    (∀ s, ∀ c ∈ sanitize_filename s, c ∉ invalidChars) ∧
    (∀ s, (∀ c ∈ s, c ∉ invalidChars) → s.dropWhile isPyWs = s →
      dropTrail s = s → rstripDots s = s → sanitize_filename s = s) := by
  refine ⟨?_, ?_, ?_⟩
  · intro s
    rw [← replaceInvalid_eq_map]
    rfl
  · intro s c hc
    rw [sanitize_filename, replaceInvalid_eq_map] at hc
    have h1 : c ∈ s.map replaceInvalidChar :=
      pyStrip_subset _ (rstripDots_subset _ hc)
    obtain ⟨d, -, hrep⟩ := List.mem_map.mp h1
    rw [← hrep, replaceInvalidChar_spec]
    by_cases hd : d ∈ invalidChars
    · rw [if_pos hd]; decide
    · rwa [if_neg hd]
  · intro s hinv h1 h2 h3
    have hmap : s.map replaceInvalidChar = s := by
      conv_rhs => rw [← List.map_id s]
      exact List.map_congr_left fun a ha => by
        rw [replaceInvalidChar_spec, if_neg (hinv a ha)]; rfl
    rw [sanitize_filename, replaceInvalid_eq_map, hmap,
      pyStrip_eq_self_of h1 h2, h3]

/-- Claim C6, witness: the fixed-point conjunct applied to the concrete
clean string `"ab"`. -/
theorem sanitize_filename_spec_witness :
    (∀ c ∈ "ab".toList, c ∉ invalidChars) ∧
    sanitize_filename "ab".toList = "ab".toList :=
  ⟨by decide, sanitize_filename_spec.2.2 "ab".toList (by decide) (by decide)
    (by decide) (by decide)⟩

/-! ### Claims C4 and C10 -/

theorem isPrefixOf_true_iff (l₁ : List Char) :
    ∀ l₂, l₁.isPrefixOf l₂ = true ↔ l₁ <+: l₂ := by
  induction l₁ with
  | nil =>
    intro l₂
    constructor
    · intro _
      exact ⟨l₂, rfl⟩
    · intro _
      cases l₂ <;> rfl
  | cons a as ih =>
    intro l₂
    cases l₂ with
    | nil =>
      constructor
      · intro h
        exact Bool.noConfusion h
      · rintro ⟨t, ht⟩
        exact List.noConfusion ht
    | cons b bs =>
      rw [List.isPrefixOf, Bool.and_eq_true, beq_iff_eq, ih bs]
      constructor
      · rintro ⟨rfl, t, rfl⟩
        exact ⟨t, rfl⟩
      · rintro ⟨t, ht⟩
        injection ht with h1 h2
        exact ⟨h1, t, h2⟩

theorem isInfix_cons_cases {l₁ l₂ : List Char} {c : Char} :
    l₁ <:+: (c :: l₂) ↔ l₁ <+: (c :: l₂) ∨ l₁ <:+: l₂ := by
  constructor
  · rintro ⟨s, t, hst⟩
    cases s with
    | nil =>
      left
      exact ⟨t, by simpa using hst⟩
    | cons x s =>
      right
      injection hst with h1 h2
      exact ⟨s, t, h2⟩
  · rintro (⟨t, ht⟩ | ⟨s, t, hst⟩)
    · exact ⟨[], t, by simpa using ht⟩
    · exact ⟨c :: s, t, by rw [← hst]; rfl⟩

theorem isInfixOfB_iff (l₁ l₂ : List Char) :
    isInfixOfB l₁ l₂ = true ↔ l₁ <:+: l₂ := by
  induction l₂ with
  | nil =>
    rw [isInfixOfB]
    constructor
    · intro h
      rw [List.isEmpty_iff.mp h]
    · rintro ⟨s, t, hst⟩
      obtain ⟨h1, h2⟩ := List.append_eq_nil.mp hst
      obtain ⟨-, h3⟩ := List.append_eq_nil.mp h1
      rw [h3]
      rfl
  | cons c cs ih =>
    rw [isInfixOfB, Bool.or_eq_true, ih, isInfix_cons_cases,
      isPrefixOf_true_iff]

theorem accepts_iff_acceptedP (p : ParsedName) (c : RawCandidate) :
    accepts p c = true ↔ acceptedP p c := by
  rw [accepts]
  cases h : firstArtistName c with
  | none =>
    simp only [Bool.false_eq_true, false_iff, acceptedP, h]
    rintro ⟨nm, hnm, -⟩
    exact Option.noConfusion hnm
  | some nm =>
    simp only [acceptedP, h, Option.some.injEq, artistTest, songTest,
      Bool.and_eq_true, Bool.or_eq_true, isInfixOfB_iff]
    constructor
    · rintro ⟨ha, hs⟩
      exact ⟨nm, rfl, ha, hs⟩
    · rintro ⟨nm', hnm', ha, hs⟩
      cases hnm'
      exact ⟨ha, hs⟩

theorem find?_eq_some_characterization {α : Type} (q : α → Bool)
    (l : List α) (c : α) :
    l.find? q = some c ↔
      ∃ pre post, l = pre ++ c :: post ∧ q c = true ∧
        ∀ x ∈ pre, ¬ q x = true := by
  induction l with
  | nil =>
    simp only [List.find?_nil, false_iff]
    · constructor
      · intro h; exact Option.noConfusion h
      · rintro ⟨pre, post, heq, -⟩
        exact List.noConfusion (List.append_eq_nil.mp heq.symm).2
  | cons x t ih =>
    by_cases hx : q x = true
    · rw [List.find?_cons_of_pos _ hx]
      constructor
      · intro h
        injection h with h
        subst h
        exact ⟨[], t, rfl, hx, by simp⟩
      · rintro ⟨pre, post, heq, hqc, hpre⟩
        cases pre with
        | nil =>
          injection heq with h1 h2
          rw [h1]
        | cons y pre' =>
          injection heq with h1 h2
          exact absurd (h1 ▸ hx) (hpre y (by simp))
    · rw [List.find?_cons_of_neg _ hx]
      constructor
      · intro h
        obtain ⟨pre, post, heq, hqc, hpre⟩ := ih.mp h
        refine ⟨x :: pre, post, by rw [heq]; rfl, hqc, ?_⟩
        intro z hz
        rcases List.mem_cons.mp hz with rfl | hz'
        · exact hx
        · exact hpre z hz'
      · rintro ⟨pre, post, heq, hqc, hpre⟩
        cases pre with
        | nil =>
          injection heq with h1 h2
          exact absurd (h1 ▸ hx) (fun hc => hc hqc)
        | cons y pre' =>
          injection heq with h1 h2
          exact ih.mpr ⟨pre', post, h2, hqc,
            fun z hz => hpre z (List.mem_cons_of_mem _ hz)⟩

/-- Claim C4: `find_best_match` returns the first candidate in input
order that is accepted — acceptance being the two-way case-insensitive
substring test on the first listed artist name and on the song title —
and returns `none` exactly when no candidate is accepted. -/
theorem find_best_match_spec (p : ParsedName) (rs : List RawCandidate) :
    (∀ c, find_best_match (some rs) p = some c ↔
      ∃ pre post, rs = pre ++ c :: post ∧ acceptedP p c ∧
        ∀ c' ∈ pre, ¬ acceptedP p c') ∧
    (find_best_match (some rs) p = none ↔ ∀ c ∈ rs, ¬ acceptedP p c) := by
  constructor
  · intro c
    rw [find_best_match, find?_eq_some_characterization]
    constructor
    · rintro ⟨pre, post, heq, hq, hpre⟩
      exact ⟨pre, post, heq, (accepts_iff_acceptedP p c).mp hq,
        fun c' hc' ha => hpre c' hc' ((accepts_iff_acceptedP p c').mpr ha)⟩
    · rintro ⟨pre, post, heq, hq, hpre⟩
      exact ⟨pre, post, heq, (accepts_iff_acceptedP p c).mpr hq,
        fun c' hc' ha => hpre c' hc' ((accepts_iff_acceptedP p c').mp ha)⟩
  · rw [find_best_match, List.find?_eq_none]
    constructor
    · intro h c hc ha
      exact h c hc ((accepts_iff_acceptedP p c).mpr ha)
    · intro h c hc ha
      exact h c hc ((accepts_iff_acceptedP p c).mp ha)

/-- Claim C4, witness: with a malformed first candidate and an accepted
second one, the matcher returns the second, through the specification
theorem applied at `pre = [the malformed candidate]`. -/
theorem find_best_match_spec_witness :
    find_best_match
      (some [{ artists := none, song_title := "One Vision".toList },
             { artists := some [some "Queen".toList],
               song_title := "One Vision (Live)".toList }])
      { artist := "Queen".toList, song := "One Vision".toList,
        song_original := "One Vision".toList, extra_info := none } =
      some { artists := some [some "Queen".toList],
             song_title := "One Vision (Live)".toList } := by
  refine ((find_best_match_spec _ _).1 _).mpr
    ⟨[{ artists := none, song_title := "One Vision".toList }], [], rfl,
     ⟨"Queen".toList, rfl, Or.inl (by decide), Or.inl (by decide)⟩, ?_⟩
  intro c' hc'
  rcases List.mem_singleton.mp hc' with rfl
  rintro ⟨nm, hnm, -⟩
  exact Option.noConfusion hnm

theorem isInfixOfB_nil_left (l : List Char) : isInfixOfB [] l = true := by
  cases l <;> rfl

theorem find?_congr_of_mem {α : Type} {q q' : α → Bool} (l : List α)
    (h : ∀ x ∈ l, q x = q' x) : l.find? q = l.find? q' := by
  induction l with
  | nil => rfl
  | cons x t ih =>
    have hx := h x (by simp)
    by_cases hq : q x = true
    · rw [List.find?_cons_of_pos _ hq, List.find?_cons_of_pos _ (hx ▸ hq)]
    · rw [List.find?_cons_of_neg _ hq, List.find?_cons_of_neg _ (hx ▸ hq)]
      exact ih fun z hz => h z (List.mem_cons_of_mem _ hz)

/-- Claim C10: an empty parsed artist makes the artist containment test
vacuously true, so the matcher reduces to the first candidate with a
well-formed artist list whose song passes the song test; symmetrically
an empty parsed song makes the song test vacuously true. -/
theorem find_best_match_empty_fields (p : ParsedName)
    (rs : List RawCandidate) :
    (p.artist = [] →
      find_best_match (some rs) p =
        rs.find? (fun c => (firstArtistName c).isSome &&
          songTest p.song c.song_title)) ∧
    (p.song = [] →
      find_best_match (some rs) p =
        rs.find? (fun c => (firstArtistName c).isSome &&
          (match firstArtistName c with
           | none => false
           | some nm => artistTest p.artist nm))) := by
  constructor
  · intro ha
    rw [find_best_match]
    refine find?_congr_of_mem rs fun c _ => ?_
    rw [accepts]
    cases h : firstArtistName c with
    | none => simp [h]
    | some nm =>
      have : artistTest p.artist nm = true := by
        rw [artistTest, ha]
        simp [lowerList, isInfixOfB_nil_left]
      simp [h, this]
  · intro hs
    rw [find_best_match]
    refine find?_congr_of_mem rs fun c _ => ?_
    rw [accepts]
    cases h : firstArtistName c with
    | none => simp [h]
    | some nm =>
      have : songTest p.song c.song_title = true := by
        rw [songTest, hs]
        simp [lowerList, isInfixOfB_nil_left]
      simp [h, this]

/-- Claim C10, witness: with an empty parsed artist, a malformed first
candidate is skipped and the first well-formed candidate whose song
matches is returned. -/
theorem find_best_match_empty_fields_witness :
    (({ artist := [], song := "xyz".toList, song_original := "xyz".toList,
        extra_info := none } : ParsedName).artist = []) ∧
    find_best_match
      (some [{ artists := none, song_title := "xyz".toList },
             { artists := some [some "Anyone".toList],
               song_title := "has xyz inside".toList }])
      { artist := [], song := "xyz".toList,
        song_original := "xyz".toList, extra_info := none } =
      some { artists := some [some "Anyone".toList],
             song_title := "has xyz inside".toList } := by
  refine ⟨rfl, ?_⟩
  refine ((find_best_match_empty_fields _ _).1 rfl).trans (by decide)

/-! ### Claims C7 and C8 -/

theorem tw_append_ne {p : Char → Bool} {u : List Char} (v : List Char)
    (hu : u.dropWhile p ≠ []) : (u ++ v).takeWhile p = u.takeWhile p := by
  induction u with
  | nil => exact absurd rfl hu
  | cons c cs ih =>
    by_cases hc : p c
    · rw [List.dropWhile_cons, if_pos hc] at hu
      rw [List.cons_append, List.takeWhile_cons_of_pos hc,
        List.takeWhile_cons_of_pos hc, ih hu]
    · rw [List.cons_append, List.takeWhile_cons_of_neg hc,
        List.takeWhile_cons_of_neg hc]

theorem pyWs_cases {c : Char} (h : isPyWs c = true) :
    c = ' ' ∨ c = '\t' ∨ c = '\n' ∨ c = '\x0b' ∨ c = '\x0c' ∨ c = '\r' := by
  rw [isPyWs] at h
  simp only [Bool.or_eq_true, beq_iff_eq] at h
  tauto

theorem featCore_append_w (d : List Char) (c0 : Char) (t : List Char)
    (hc0 : isPyWs c0 = true) :
    featCore (d ++ (c0 :: t)) = featCore (d ++ [' '])  := by
  have hfne : ¬ ('f' = c0.toLower) := by
    rcases pyWs_cases hc0 with rfl | rfl | rfl | rfl | rfl | rfl <;> decide
  have hene : ¬ ('e' = c0.toLower) := by
    rcases pyWs_cases hc0 with rfl | rfl | rfl | rfl | rfl | rfl <;> decide
  have hane : ¬ ('a' = c0.toLower) := by
    rcases pyWs_cases hc0 with rfl | rfl | rfl | rfl | rfl | rfl <;> decide
  have htne : ¬ ('t' = c0.toLower) := by
    rcases pyWs_cases hc0 with rfl | rfl | rfl | rfl | rfl | rfl <;> decide
  have hdotne : ¬ (c0 = '.') := by
    rcases pyWs_cases hc0 with rfl | rfl | rfl | rfl | rfl | rfl <;> decide
  have hspace : isPyWs ' ' = true := rfl
  rcases d with - | ⟨x1, d⟩
  · simp [featCore, ciPrefixB, lowerList, List.isPrefixOf, hfne]
  rcases d with - | ⟨x2, d⟩
  · simp [featCore, ciPrefixB, lowerList, List.isPrefixOf, hene]
  rcases d with - | ⟨x3, d⟩
  · simp [featCore, ciPrefixB, lowerList, List.isPrefixOf, hane]
  rcases d with - | ⟨x4, d⟩
  · simp [featCore, ciPrefixB, lowerList, List.isPrefixOf, htne]
  rcases d with - | ⟨x5, d⟩
  · simp [featCore, ciPrefixB, lowerList, List.isPrefixOf, hdotne,
      List.takeWhile_cons, hc0, hspace]
  rcases d with - | ⟨x6, d⟩
  · simp only [featCore, ciPrefixB, lowerList, List.map_cons, List.map_nil,
      List.isPrefixOf, List.cons_append, List.nil_append, List.drop_succ_cons,
      List.drop_zero, List.head?_cons]
    split_ifs with h5
    · simp [List.takeWhile_cons, hc0, hspace]
    · by_cases hx : isPyWs x5 = true <;> simp [List.takeWhile_cons, hx]
  · simp only [featCore, ciPrefixB, lowerList, List.map_cons,
      List.isPrefixOf, List.cons_append, List.drop_succ_cons,
      List.drop_zero, List.head?_cons]
    split_ifs with h5
    · by_cases hx : isPyWs x6 = true <;> simp [List.takeWhile_cons, hx]
    · by_cases hx : isPyWs x5 = true <;> simp [List.takeWhile_cons, hx]

theorem matchFeatAt_append_transfer (u : List Char) (c0 : Char)
    (t : List Char) (hc0 : isPyWs c0 = true)
    (hu : u.dropWhile isPyWs ≠ []) :
    matchFeatAt (u ++ (c0 :: t)) = matchFeatAt (u ++ [' ']) := by
  rw [matchFeatAt, matchFeatAt, tw_append_ne _ hu, tw_append_ne _ hu,
    dropWhile_append_of_ne_nil _ hu, dropWhile_append_of_ne_nil _ hu,
    featCore_append_w _ _ _ hc0]

theorem not_isPyWs_of_lower_f {c : Char} (hc : c.toLower = 'f') :
    isPyWs c = false := by
  cases hb : isPyWs c with
  | false => rfl
  | true =>
    exfalso
    rcases pyWs_cases hb with rfl | rfl | rfl | rfl | rfl | rfl <;>
      exact absurd hc (by decide)

theorem matchFeatAt_junction (w1 f w2 b : List Char)
    (hw1 : ∀ c ∈ w1, isPyWs c = true)
    (hw2ne : w2 ≠ []) (hw2 : ∀ c ∈ w2, isPyWs c = true)
    (hf : lowerList f = "feat".toList ∨
      ∃ f4, f = f4 ++ ['.'] ∧ lowerList f4 = "feat".toList) :
    featCore (f ++ (w2 ++ b)) = true ∧
    (w1 ≠ [] → matchFeatAt (w1 ++ (f ++ (w2 ++ b))) = true) := by
  obtain ⟨d, w2', rfl⟩ : ∃ d w2', w2 = d :: w2' := by
    cases w2 with
    | nil => exact absurd rfl hw2ne
    | cons d w2' => exact ⟨d, w2', rfl⟩
  have hd : isPyWs d = true := hw2 d (List.mem_cons_self _ _)
  have hddot : ¬ (d = '.') := by
    rcases pyWs_cases hd with rfl | rfl | rfl | rfl | rfl | rfl <;> decide
  have hcore : featCore (f ++ ((d :: w2') ++ b)) = true := by
    rcases hf with hf4 | ⟨f4, rfl, hf4⟩
    · have hlen : f.length = 4 := by
        have := congrArg List.length hf4
        simpa [lowerList] using this
      rw [featCore]
      have hpre : ciPrefixB "feat".toList (f ++ ((d :: w2') ++ b)) = true := by
        rw [ciPrefixB, lowerList, List.map_append, ← lowerList, ← lowerList,
          hf4]
        exact (isPrefixOf_true_iff _ _).mpr ⟨lowerList ((d :: w2') ++ b), rfl⟩
      rw [hpre]
      have hdrop : (f ++ ((d :: w2') ++ b)).drop 4 = (d :: w2') ++ b := by
        rw [← hlen]
        exact List.drop_left _ _
      rw [hdrop]
      simp [List.takeWhile_cons, hd, hddot]
    · have hlen : f4.length = 4 := by
        have := congrArg List.length hf4
        simpa [lowerList] using this
      have hassoc : (f4 ++ ['.']) ++ ((d :: w2') ++ b) =
          f4 ++ ('.' :: ((d :: w2') ++ b)) := by
        rw [List.append_assoc]
        rfl
      rw [featCore, hassoc]
      have hpre : ciPrefixB "feat".toList (f4 ++ ('.' :: ((d :: w2') ++ b))) =
          true := by
        rw [ciPrefixB, lowerList, List.map_append, ← lowerList, ← lowerList,
          hf4]
        exact (isPrefixOf_true_iff _ _).mpr ⟨lowerList ('.' :: ((d :: w2') ++ b)), rfl⟩
      rw [hpre]
      have hdrop : (f4 ++ ('.' :: ((d :: w2') ++ b))).drop 4 =
          '.' :: ((d :: w2') ++ b) := by
        rw [← hlen]
        exact List.drop_left _ _
      rw [hdrop]
      simp [List.takeWhile_cons, hd]
  refine ⟨hcore, ?_⟩
  intro hw1ne
  obtain ⟨c0, w1', rfl⟩ : ∃ c0 w1', w1 = c0 :: w1' := by
    cases w1 with
    | nil => exact absurd rfl hw1ne
    | cons c0 w1' => exact ⟨c0, w1', rfl⟩
  have hc0 : isPyWs c0 = true := hw1 c0 (List.mem_cons_self _ _)
  have hw1nil : (c0 :: w1').dropWhile isPyWs = [] :=
    List.dropWhile_eq_nil_iff.mpr hw1
  have hfhead : ∃ c1 f', f ++ ((d :: w2') ++ b) = c1 :: f' ∧
      isPyWs c1 = false := by
    rcases hf with hf4 | ⟨f4, rfl, hf4⟩
    · cases f with
      | nil => exact absurd hf4 (by decide)
      | cons c1 fr =>
        refine ⟨c1, fr ++ ((d :: w2') ++ b), rfl, ?_⟩
        have : c1.toLower = 'f' := by
          rw [lowerList, List.map_cons] at hf4
          exact (List.cons.inj hf4).1
        exact not_isPyWs_of_lower_f this
    · cases f4 with
      | nil => exact absurd hf4 (by decide)
      | cons c1 fr =>
        refine ⟨c1, (fr ++ ['.']) ++ ((d :: w2') ++ b), rfl, ?_⟩
        have : c1.toLower = 'f' := by
          rw [lowerList, List.map_cons] at hf4
          exact (List.cons.inj hf4).1
        exact not_isPyWs_of_lower_f this
  obtain ⟨c1, f', hf', hc1⟩ := hfhead
  rw [matchFeatAt]
  have htw : ((c0 :: w1') ++ (f ++ ((d :: w2') ++ b))).takeWhile isPyWs =
      c0 :: ((w1' ++ (f ++ ((d :: w2') ++ b))).takeWhile isPyWs) := by
    rw [List.cons_append, List.takeWhile_cons_of_pos hc0]
  have hdw : ((c0 :: w1') ++ (f ++ ((d :: w2') ++ b))).dropWhile isPyWs =
      f ++ ((d :: w2') ++ b) := by
    rw [dropWhile_append_of_eq_nil _ hw1nil, hf',
      List.dropWhile_cons_of_neg (by rw [hc1]; exact Bool.noConfusion), ← hf']
  rw [htw, hdw, hcore]
  rfl

theorem all_ws_dropTrail {l : List Char} (h : l.dropWhile isPyWs = []) :
    dropTrail l = [] :=
  (dropTrail_eq_nil_iff l).mpr (List.dropWhile_eq_nil_iff.mpr
    (fun x hx => List.dropWhile_eq_nil_iff.mp h x (List.mem_reverse.mp hx)))

theorem featTrunc_append (a : List Char) (c0 : Char) (t' : List Char)
    (hc0 : isPyWs c0 = true)
    (hbase : matchFeatAt (c0 :: t') = true)
    (h : featMatchesSomewhere (a ++ [' ']) = false) :
    dropTrail (featTrunc (a ++ (c0 :: t'))) = dropTrail a := by
  induction a with
  | nil =>
    rw [List.nil_append, featTrunc, if_pos hbase]
  | cons c a' ih =>
    have hsplit : matchFeatAt (c :: (a' ++ [' '])) = false ∧
        featMatchesSomewhere (a' ++ [' ']) = false := by
      rw [List.cons_append, featMatchesSomewhere] at h
      exact ⟨by rcases Bool.or_eq_false_iff.mp h with ⟨h1, -⟩; exact h1,
        by rcases Bool.or_eq_false_iff.mp h with ⟨-, h2⟩; exact h2⟩
    rw [List.cons_append, featTrunc]
    by_cases hm : matchFeatAt (c :: (a' ++ (c0 :: t'))) = true
    · rw [if_pos hm]
      by_cases hws : (c :: a').dropWhile isPyWs = []
      · rw [all_ws_dropTrail hws]
        rfl
      · exfalso
        have htr := matchFeatAt_append_transfer (c :: a') c0 t' hc0 hws
        rw [List.cons_append, List.cons_append] at htr
        rw [htr, hsplit.1] at hm
        exact Bool.noConfusion hm
    · rw [if_neg hm, dropTrail_cons, dropTrail_cons, ih hsplit.2]

theorem dropTrail_append_ws (Z W : List Char)
    (h : ∀ c ∈ W, isPyWs c = true) :
    dropTrail (Z ++ W) = dropTrail Z := by
  have hW : W.reverse.dropWhile isPyWs = [] :=
    List.dropWhile_eq_nil_iff.mpr fun x hx => h x (List.mem_reverse.mp hx)
  rw [dropTrail, dropTrail, List.reverse_append, dropWhile_append_of_eq_nil _ hW]

theorem pyStrip_dropTrail (X : List Char) :
    pyStrip (dropTrail X) = pyStrip X := by
  have hdecomp : X = dropTrail X ++ (X.reverse.takeWhile isPyWs).reverse := by
    rw [dropTrail, ← List.reverse_append, List.takeWhile_append_dropWhile,
      List.reverse_reverse]
  have hW : ∀ c ∈ (X.reverse.takeWhile isPyWs).reverse, isPyWs c = true :=
    fun c hc => List.mem_takeWhile_imp (List.mem_reverse.mp hc)
  conv_rhs => rw [hdecomp]
  by_cases hz : (dropTrail X).dropWhile isPyWs = []
  · have hnil : dropTrail X = [] := by
      have h1 := all_ws_dropTrail hz
      rwa [dropTrail_dropTrail] at h1
    have hWd : ((X.reverse.takeWhile isPyWs).reverse).dropWhile isPyWs = [] :=
      List.dropWhile_eq_nil_iff.mpr hW
    rw [hnil, List.nil_append, pyStrip, pyStrip, hWd]
    rfl
  · rw [pyStrip, pyStrip, dropWhile_append_of_ne_nil _ hz,
      dropTrail_append_ws _ _ hW]

theorem get_primary_artist_trunc (a w1 f w2 b : List Char)
    (hw1ne : w1 ≠ []) (hw1 : ∀ c ∈ w1, isPyWs c = true)
    (hw2ne : w2 ≠ []) (hw2 : ∀ c ∈ w2, isPyWs c = true)
    (hf : lowerList f = "feat".toList ∨
      ∃ f4, f = f4 ++ ['.'] ∧ lowerList f4 = "feat".toList)
    (h : featMatchesSomewhere (a ++ [' ']) = false) :
    get_primary_artist (a ++ (w1 ++ (f ++ (w2 ++ b)))) = pyStrip a := by
  obtain ⟨c0, w1', rfl⟩ : ∃ c0 w1', w1 = c0 :: w1' := by
    cases w1 with
    | nil => exact absurd rfl hw1ne
    | cons c0 w1' => exact ⟨c0, w1', rfl⟩
  have hc0 : isPyWs c0 = true := hw1 c0 (List.mem_cons_self _ _)
  have hbase :
      matchFeatAt (c0 :: (w1' ++ (f ++ (w2 ++ b)))) = true := by
    have := (matchFeatAt_junction (c0 :: w1') f w2 b hw1 hw2ne hw2 hf).2
      (by exact fun hne => List.noConfusion hne)
    rwa [List.cons_append] at this
  have hft := featTrunc_append a c0 (w1' ++ (f ++ (w2 ++ b))) hc0 hbase h
  have hshape : (c0 :: w1') ++ (f ++ (w2 ++ b)) =
      c0 :: (w1' ++ (f ++ (w2 ++ b))) := rfl
  rw [get_primary_artist, hshape]
  calc pyStrip (featTrunc (a ++ (c0 :: (w1' ++ (f ++ (w2 ++ b))))))
      = pyStrip (dropTrail (featTrunc
          (a ++ (c0 :: (w1' ++ (f ++ (w2 ++ b))))))) :=
        (pyStrip_dropTrail _).symm
    _ = pyStrip (dropTrail a) := by rw [hft]
    _ = pyStrip a := pyStrip_dropTrail a

/-- Claim C8, amended: for every whitespace-delimited `feat` clause —
any non-empty whitespace runs `w1`, `w2` and any casing `f` of the word
`feat`, optionally followed by a literal dot — occurring first (the
artist part `a` contains no earlier clause), `get_primary_artist`
truncates at the clause and trims, so the collaborators after it never
reach the directory name; `featuring` clauses are not stripped. -/
theorem get_primary_artist_spec (a w1 f w2 b : List Char)
    (hw1ne : w1 ≠ []) (hw1 : ∀ c ∈ w1, isPyWs c = true)
    (hw2ne : w2 ≠ []) (hw2 : ∀ c ∈ w2, isPyWs c = true)
    (hf : lowerList f = "feat".toList)
    (h : featMatchesSomewhere (a ++ [' ']) = false) :
    get_primary_artist (a ++ w1 ++ f ++ w2 ++ b) = pyStrip a ∧
    get_primary_artist (a ++ w1 ++ (f ++ ['.']) ++ w2 ++ b) = pyStrip a := by
  constructor
  · have e : a ++ w1 ++ f ++ w2 ++ b = a ++ (w1 ++ (f ++ (w2 ++ b))) := by
      simp [List.append_assoc]
    rw [e]
    exact get_primary_artist_trunc a w1 f w2 b hw1ne hw1 hw2ne hw2
      (Or.inl hf) h
  · have e : a ++ w1 ++ (f ++ ['.']) ++ w2 ++ b =
        a ++ (w1 ++ ((f ++ ['.']) ++ (w2 ++ b))) := by
      simp [List.append_assoc]
    rw [e]
    exact get_primary_artist_trunc a w1 (f ++ ['.']) w2 b hw1ne hw1 hw2ne hw2
      (Or.inr ⟨f, rfl, hf⟩) h

/-- Claim C8, counterexample: `get_primary_artist` leaves a
`"featuring"` clause untouched (the pattern only accepts `feat` or
`feat.` followed by whitespace), so the claim fails for featuring
clauses. -/
theorem get_primary_artist_featuring_cex :
    get_primary_artist "A featuring B".toList = "A featuring B".toList ∧
    get_primary_artist "A featuring B".toList ≠ "A".toList := by
  decide

/-- Claim C8, witness: the amended theorem on a concrete mixed-case
clause with a tab as the trailing whitespace: `"Coolio FeAt\tLV"`
resolves to primary artist `"Coolio"`. -/
theorem get_primary_artist_spec_witness :
    featMatchesSomewhere ("Coolio".toList ++ [' ']) = false ∧
    lowerList "FeAt".toList = "feat".toList ∧
    get_primary_artist "Coolio FeAt\tLV".toList = "Coolio".toList := by
  refine ⟨by decide, by decide, ?_⟩
  have e : "Coolio".toList ++ [' '] ++ "FeAt".toList ++ ['\t'] ++
      "LV".toList = "Coolio FeAt\tLV".toList := by decide
  rw [← e]
  exact (get_primary_artist_spec "Coolio".toList [' '] "FeAt".toList ['\t']
    "LV".toList (by decide) (by decide) (by decide) (by decide) (by decide)
    (by decide)).1.trans (by decide)

/-- Claim C7, counterexample: on download success the pre-existing file
is renamed using its **own** stem, not the canonical
`"{artist} - {song_title}"` stem: for the source file
`Daft_Punk_-_One_More_Time.avi` resolved as `Daft Punk - One More Time`
the preserved name keeps the underscores. -/
theorem original_rename_uses_own_stem_cex :
    (processApply "Daft Punk".toList "One More Time".toList none
        "Daft_Punk_-_One_More_Time".toList ".avi".toList true
        (some "id".toList) true).movedTo ≠
      sanitize_filename ("Daft Punk - One More Time".toList ++
        " (original)".toList ++ ".avi".toList) ∧
    (processApply "Daft Punk".toList "One More Time".toList none
        "Daft_Punk_-_One_More_Time".toList ".avi".toList true
        (some "id".toList) true).movedTo =
      "Daft_Punk_-_One_More_Time (original).avi".toList := by
  decide

/-- Claim C7, amended: when a download is attempted and succeeds and
the source file is not already `(original)`-marked, the pre-existing
local file is renamed (sanitized) to its **own** stem plus a literal
`" (original)"` suffix before the same extension, and the download is
kept alongside under the canonical `"{artist} - {song_title}.mp4"`
name. -/
theorem original_rename_spec (artist song : List Char)
    (extra : Option (List Char)) (stem ext yid : List Char)
    (h : isAlreadyOriginal stem = false) :
    (processApply artist song extra stem ext true (some yid) true).movedTo =
      sanitize_filename (stem ++ " (original)".toList ++ ext) ∧
    (processApply artist song extra stem ext true (some yid) true).downloaded =
      some (sanitize_filename (artist ++ sepDash ++ song ++ ".mp4".toList)) := by
  rw [processApply.eq_def]
  simp only [h, Option.isSome_some, Bool.and_true, Bool.true_and,
    Bool.not_false, if_true]
  exact ⟨trivial, trivial⟩

/-- Claim C7, witness: the amended theorem applied to a concrete file. -/
theorem original_rename_spec_witness :
    isAlreadyOriginal "MyClip".toList = false ∧
    (processApply "A".toList "B".toList none "MyClip".toList ".mkv".toList
      true (some "y".toList) true).movedTo =
      sanitize_filename ("MyClip".toList ++ " (original)".toList ++
        ".mkv".toList) :=
  ⟨by decide, (original_rename_spec "A".toList "B".toList none "MyClip".toList
    ".mkv".toList "y".toList (by decide)).1⟩

/-! ### Claim C9 -/

/-- Claim C9, counterexample: in `scrape_artist` the detail fetch for
an entry is issued **before** the planned-path existence check, so an
entry whose planned download path already exists still causes a
detail-refetch call (the trace below contains the fetch and nothing
else). -/
theorem scrape_skip_still_fetches_details_cex :
    (ScrapeEnv.existsOnDisk
      (⟨fun _ => some ⟨["A".toList], "S".toList,
          [("youtube".toList, "y".toList)]⟩,
        fun _ => true, fun _ _ => true⟩ : ScrapeEnv)
      (plannedPathArtist "slug".toList
        ⟨["A".toList], "S".toList, [("youtube".toList, "y".toList)]⟩) =
      true) ∧
    processEntryArtist
      (⟨fun _ => some ⟨["A".toList], "S".toList,
          [("youtube".toList, "y".toList)]⟩,
        fun _ => true, fun _ _ => true⟩ : ScrapeEnv)
      "slug".toList ⟨7, "S".toList⟩ =
      [ScrapeEvent.detailFetch 7] := by
  exact ⟨rfl, rfl⟩

/-- Claim C9, amended: in both bulk modes, an entry whose planned
download path already exists on disk is skipped without issuing any
external download call; the detail fetch for the entry, however, is
always issued before the check. -/
theorem scrape_skip_no_download :
    (∀ (env : ScrapeEnv) (slug : List Char) (v : VideoStub),
      (∀ d, env.details v.id = some d →
        env.existsOnDisk (plannedPathArtist slug d) = true) →
      ∀ y p, ScrapeEvent.download y p ∉ processEntryArtist env slug v) ∧
    (∀ (env : ScrapeEnv) (v : DirVideoStub),
      env.existsOnDisk (plannedPathDirector v) = true →
      ∀ y p, ScrapeEvent.download y p ∉ processEntryDirector env v) := by
  constructor
  · intro env slug v hex y p
    rw [processEntryArtist]
    cases hd : env.details v.id with
    | none => simp
    | some d =>
      cases hs : firstYouTubeSource d.sources with
      | none => simp [hs]
      | some yid => simp [hs, hex d hd]
  · intro env v hex y p
    rw [processEntryDirector]
    cases hd : env.details v.id with
    | none => simp
    | some d =>
      cases hs : firstYouTubeSource d.sources with
      | none => simp [hs]
      | some yid => simp [hs, hex]

/-- Claim C9, witness: the no-download half applied to the concrete
always-exists environment. -/
theorem scrape_skip_no_download_witness :
    ScrapeEvent.download "y".toList [] ∉
      processEntryArtist
        (⟨fun _ => some ⟨["A".toList], "S".toList,
            [("youtube".toList, "y".toList)]⟩,
          fun _ => true, fun _ _ => true⟩ : ScrapeEnv)
        "slug".toList ⟨7, "S".toList⟩ :=
  scrape_skip_no_download.1 _ _ _ (fun _ _ => rfl) _ _

/-! ### Claim C3 -/

theorem findSepIdx_single (c : Char) (xs ys : List Char) (h : c ∉ xs) :
    findSepIdx [c] (xs ++ c :: ys) = some xs.length := by
  induction xs with
  | nil => simp [findSepIdx, List.isPrefixOf]
  | cons x xs ih =>
    have hx : (c == x) = false := by
      have : ¬ x = c := fun he => h (by rw [he]; exact List.mem_cons_self _ _)
      simp [beq_iff_eq]
      exact fun he => this he.symm
    rw [List.cons_append, findSepIdx, if_neg (by simp [List.isPrefixOf, hx]),
      ih (fun hm => h (List.mem_cons_of_mem _ hm))]
    rfl

theorem pathStem_append_ext (X ext : List Char) (hX : X ≠ [])
    (hext : ext ≠ []) (hdot : '.' ∉ ext) :
    pathStem (X ++ ('.' :: ext)) = X := by
  have hrev : (X ++ ('.' :: ext)).reverse = ext.reverse ++ '.' :: X.reverse := by
    rw [List.reverse_append, List.reverse_cons, List.append_assoc,
      List.singleton_append]
  have hidx : findSepIdx ['.'] ((X ++ ('.' :: ext)).reverse) =
      some ext.reverse.length := by
    rw [hrev]
    exact findSepIdx_single '.' ext.reverse X.reverse
      (fun hm => hdot (List.mem_reverse.mp hm))
  unfold pathStem
  rw [hidx]
  have hlen : (X ++ ('.' :: ext)).length = X.length + (ext.length + 1) := by
    simp
  have hi : (X ++ ('.' :: ext)).length - 1 - ext.reverse.length = X.length := by
    rw [hlen, List.length_reverse]
    omega
  have hXpos : 0 < X.length := List.length_pos.mpr hX
  have hepos : 0 < ext.length := List.length_pos.mpr hext
  dsimp only
  rw [hi, if_pos ⟨hXpos, by rw [hlen]; omega⟩, List.take_left]

theorem findSepIdx_sepDash_mid (A B : List Char)
    (hA : ¬ (sepDash <:+: A)) (hEnd : ¬ ([' ', '-'] <:+ A)) :
    findSepIdx sepDash (A ++ (sepDash ++ B)) = some A.length := by
  induction A with
  | nil =>
    rw [List.nil_append]
    show findSepIdx sepDash (' ' :: '-' :: ' ' :: B) = some 0
    simp [findSepIdx, sepDash, List.isPrefixOf]
  | cons c A1 ih =>
    have hnp : ¬ (sepDash.isPrefixOf (c :: (A1 ++ (sepDash ++ B))) = true) := by
      intro hpre
      obtain ⟨t, ht⟩ := (isPrefixOf_true_iff sepDash _).mp hpre
      rw [show sepDash ++ t = ' ' :: '-' :: ' ' :: t from rfl] at ht
      injection ht with h1 h2
      cases A1 with
      | nil =>
        rw [List.nil_append] at h2
        rw [show sepDash ++ B = ' ' :: '-' :: ' ' :: B from rfl] at h2
        injection h2 with h3 h4
        exact absurd h3 (by decide)
      | cons d A2 =>
        rw [List.cons_append] at h2
        injection h2 with h3 h4
        cases A2 with
        | nil =>
          subst h1
          subst h3
          exact hEnd ⟨[], rfl⟩
        | cons e A3 =>
          rw [List.cons_append] at h4
          injection h4 with h5 h6
          subst h1
          subst h3
          subst h5
          exact hA ⟨[], A3, rfl⟩
    rw [List.cons_append, findSepIdx, if_neg hnp,
      ih (fun hin => hA (by
        obtain ⟨s, t, hst⟩ := hin
        exact ⟨c :: s, t, by rw [← hst]; rfl⟩))
        (fun hsuf => hEnd (hsuf.trans (List.suffix_cons _ _)))]
    rfl

/-- Claim C3: for a filename `"{A} - {B}.{ext}"` whose artist part
(after underscore replacement) contains no further `" - "` — the two
hypotheses characterise "the written separator is the first occurrence"
— and whose extension is non-empty and dot-free, the strict parser
returns artist = A (underscores replaced, trimmed), song_original = the
trimmed song segment, song = that segment with every
parenthesized/bracketed/braced span removed and re-trimmed, and
extra_info = the space-joined spans (`none` when there are none). -/
theorem parse_filename_strict_spec (A B ext : List Char)
    (hA : ¬ (sepDash <:+: replaceUnderscores A))
    (hEnd : ¬ ([' ', '-'] <:+ replaceUnderscores A))
    (hext : ext ≠ []) (hdot : '.' ∉ ext) :
    parse_filename (A ++ sepDash ++ B ++ ['.'] ++ ext) false =
      some { artist := pyStrip (replaceUnderscores A),
             song := pyStrip (removeSpans (pyStrip (replaceUnderscores B))),
             song_original := pyStrip (replaceUnderscores B),
             extra_info := extraInfoOf (pyStrip (replaceUnderscores B)) } := by
  have hstem : pathStem (A ++ sepDash ++ B ++ ['.'] ++ ext) =
      A ++ sepDash ++ B := by
    have e : A ++ sepDash ++ B ++ ['.'] ++ ext =
        (A ++ sepDash ++ B) ++ ('.' :: ext) := by
      simp [List.append_assoc]
    rw [e]
    refine pathStem_append_ext _ _ (fun hnil => ?_) hext hdot
    have := congrArg List.length hnil
    simp [sepDash] at this
  rw [parse_filename]
  simp only [Bool.false_eq_true, if_false]
  rw [hstem]
  have hsep : sepDash.map (fun c => if c = '_' then ' ' else c) = sepDash := rfl
  have hrepl : replaceUnderscores (A ++ sepDash ++ B) =
      replaceUnderscores A ++ (sepDash ++ replaceUnderscores B) := by
    simp [replaceUnderscores, List.map_append, List.append_assoc, hsep]
  have hidx := findSepIdx_sepDash_mid (replaceUnderscores A)
    (replaceUnderscores B) hA hEnd
  unfold parseStrict
  dsimp only
  rw [hrepl, splitOnFirst, hidx]
  have htake : (replaceUnderscores A ++ (sepDash ++ replaceUnderscores B)).take
      (replaceUnderscores A).length = replaceUnderscores A := List.take_left _ _
  have hdrop : (replaceUnderscores A ++ (sepDash ++ replaceUnderscores B)).drop
      ((replaceUnderscores A).length + sepDash.length) = replaceUnderscores B := by
    rw [show replaceUnderscores A ++ (sepDash ++ replaceUnderscores B) =
        (replaceUnderscores A ++ sepDash) ++ replaceUnderscores B from
      (List.append_assoc _ _ _).symm,
      show (replaceUnderscores A).length + sepDash.length =
        (replaceUnderscores A ++ sepDash).length from
      (List.length_append _ _).symm]
    exact List.drop_left _ _
  simp only [Option.map_some']
  rw [htake, hdrop]
  rfl

/-- Claim C3, witness: the specification theorem at a concrete
filename. -/
theorem parse_filename_strict_spec_witness :
    (¬ (sepDash <:+: replaceUnderscores "Daft Punk".toList)) ∧
    (¬ ([' ', '-'] <:+ replaceUnderscores "Daft Punk".toList)) ∧
    parse_filename "Daft Punk - One More Time (Official Video).mp4".toList
        false =
      some { artist := "Daft Punk".toList,
             song := "One More Time".toList,
             song_original := "One More Time (Official Video)".toList,
             extra_info := some "(Official Video)".toList } := by
  refine ⟨by decide, by decide, ?_⟩
  have h := parse_filename_strict_spec "Daft Punk".toList
    "One More Time (Official Video)".toList "mp4".toList
    (by decide) (by decide) (by decide) (by decide)
  have e : "Daft Punk".toList ++ sepDash ++
      "One More Time (Official Video)".toList ++ ['.'] ++ "mp4".toList =
      "Daft Punk - One More Time (Official Video).mp4".toList := by decide
  rw [e] at h
  exact h.trans (by decide)

end MusicVideoScrape
